import Mathlib

/-
  Verification of the complex Poincaré disk manifold and its Riemannian
  metric (geomstats, geomstats/geometry/complex_poincare_disk.py).

  Points are complex scalars; batched inputs are lists of rows.  All
  numeric operations of the source are embedded over ℝ and ℂ, mirroring
  the source formulas (including the atol clamps of the helper tau).
-/

open ComplexConjugate

noncomputable section

namespace ComplexPoincareDisk

/-- Shape-carrying array of points, mirroring a numpy array of complex
numbers of rank 1 (each row a single scalar) or rank 2 with a fixed
number of columns.  rows holds, for each index i, the components of
point i. -/
structure CArr where
  ndim : ℕ
  cols : ℕ
  rows : List (List ℂ)

/-- Shape test of belongs: the input shape is accepted when it is rank 1,
or rank 2 with second dimension 1. -/
def isScalarShape (a : CArr) : Bool :=
  a.ndim == 1 || (a.ndim == 2 && a.cols == 1)

/-- Membership test of ComplexPoincareDisk.belongs: one entry per input
point, the shape test conjoined with all components of that point having
modulus lower than one.  The tolerance argument is accepted but unused,
as in the source. -/
def belongs (point : CArr) (_atol : ℝ) : List Prop :=
  point.rows.map
    (fun row => isScalarShape point = true ∧ ∀ z ∈ row, Complex.abs z < 1)

/-- ComplexPoincareDisk.projection on one component: components of
modulus at least 1 - atol are rescaled radially to modulus 1 - atol,
others are returned unchanged. -/
def projection (atol : ℝ) (point : ℂ) : ℂ :=
  if 1 - atol ≤ Complex.abs point then
    (((1 - atol) / Complex.abs point : ℝ) : ℂ) * point
  else point

/-- One raw sample of ComplexPoincareDisk.random_point before projection:
uniform draws x, y in the unit interval combined into x + i y, recentered
by 0.5 + 0.5i, halved, scaled by 1 - atol and by bound. -/
def rawSample (atol bound x y : ℝ) : ℂ :=
  ((x : ℂ) + Complex.I * (y : ℂ) - (((1 : ℝ)/2 : ℝ) : ℂ) - (((1 : ℝ)/2 : ℝ) : ℂ) * Complex.I)
    / 2 * ((1 - atol : ℝ) : ℂ) * ((bound : ℝ) : ℂ)

/-- ComplexPoincareDisk.random_point: every raw sample is passed through
projection; the random draws are supplied as a list of pairs in the unit
interval, one pair per sample. -/
def random_point (atol bound : ℝ) (draws : List (ℝ × ℝ)) : List ℂ :=
  draws.map (fun d => projection atol (rawSample atol bound d.1 d.2))

end ComplexPoincareDisk

namespace ComplexPoincareDiskMetric

/-- The clamped ratio delta of ComplexPoincareDiskMetric._tau:
delta = |a - b| / max(|1 - a conj(b)|, atol), clamped to
min(delta, 1 - atol). -/
def tauDelta (atol : ℝ) (point_a point_b : ℂ) : ℝ :=
  min (Complex.abs (point_a - point_b) /
        max (Complex.abs (1 - point_a * conj point_b)) atol)
      (1 - atol)

/-- ComplexPoincareDiskMetric._tau: tau = (1/2) log((1+delta)/(1-delta))
with delta the clamped ratio. -/
def tau (atol : ℝ) (point_a point_b : ℂ) : ℝ :=
  (1/2) * Real.log ((1 + tauDelta atol point_a point_b) /
                    (1 - tauDelta atol point_a point_b))

/-- The real exponent s of ComplexPoincareDiskMetric.exp:
s = 2 |tangent_vec| / (1 - |base_point|^2). -/
def expS (tangent_vec base_point : ℂ) : ℝ :=
  2 * Complex.abs tangent_vec / (1 - (Complex.abs base_point)^2)

/-- The unit direction factor of ComplexPoincareDiskMetric.exp:
e^(i theta) with theta the angle of the tangent vector. -/
def exp_i_theta (tangent_vec : ℂ) : ℂ :=
  Complex.exp (Complex.I * ((Complex.arg tangent_vec : ℝ) : ℂ))

/-- The decay factor of ComplexPoincareDiskMetric.exp: e^(-s), cast to a
complex number. -/
def exp_minus_s (tangent_vec base_point : ℂ) : ℂ :=
  ((Real.exp (-(expS tangent_vec base_point)) : ℝ) : ℂ)

/-- ComplexPoincareDiskMetric.exp, the Riemannian exponential map:
[b + e^(i theta) + (b - e^(i theta)) e^(-s)] /
[1 + conj(b) e^(i theta) + (1 - conj(b) e^(i theta)) e^(-s)]. -/
def exp (tangent_vec base_point : ℂ) : ℂ :=
  (base_point + exp_i_theta tangent_vec
    + (base_point - exp_i_theta tangent_vec) * exp_minus_s tangent_vec base_point) /
  (1 + conj base_point * exp_i_theta tangent_vec
    + (1 - conj base_point * exp_i_theta tangent_vec) * exp_minus_s tangent_vec base_point)

/-- ComplexPoincareDiskMetric.log, the Riemannian logarithm map:
tau(base_point, point) e^(i (angle(point - base_point) -
angle(1 - conj(base_point) point))) (1 - |base_point|^2). -/
def log (atol : ℝ) (point base_point : ℂ) : ℂ :=
  ((tau atol base_point point : ℝ) : ℂ)
    * Complex.exp (Complex.I *
        ((Complex.arg (point - base_point)
          - Complex.arg (1 - conj base_point * point) : ℝ) : ℂ))
    * (((1 - (Complex.abs base_point)^2 : ℝ)) : ℂ)

/-- ComplexPoincareDiskMetric.squared_dist: the square of the real part
of tau, times the square of the scale. -/
def squared_dist (scale atol : ℝ) (point_a point_b : ℂ) : ℝ :=
  (tau atol point_a point_b)^2 * scale^2

/-- ComplexPoincareDiskMetric.dist: tau times the scale, with no real
part extraction (tau is real in this embedding, as the source formula is
numerically real). -/
def dist (scale atol : ℝ) (point_a point_b : ℂ) : ℝ :=
  tau atol point_a point_b * scale

end ComplexPoincareDiskMetric

namespace ComplexPoincareDiskMetric

lemma abs_one_sub_mul_conj_comm (a b : ℂ) :
    Complex.abs (1 - a * conj b) = Complex.abs (1 - b * conj a) := by
  have h : (1 : ℂ) - b * conj a = conj (1 - a * conj b) := by
    simp [map_sub, map_mul, map_one]
    ring
  rw [h, Complex.abs_conj]

lemma tauDelta_comm (atol : ℝ) (a b : ℂ) :
    tauDelta atol a b = tauDelta atol b a := by
  unfold tauDelta
  rw [Complex.abs.map_sub, abs_one_sub_mul_conj_comm]

lemma tauDelta_nonneg (atol : ℝ) (a b : ℂ) (h0 : 0 < atol) (h1 : atol ≤ 1) :
    0 ≤ tauDelta atol a b := by
  unfold tauDelta
  have hden : (0 : ℝ) < max (Complex.abs (1 - a * conj b)) atol :=
    lt_max_of_lt_right h0
  have hnum : (0 : ℝ) ≤ Complex.abs (a - b) := Complex.abs.nonneg _
  exact le_min (div_nonneg hnum hden.le) (by linarith)

lemma tauDelta_le (atol : ℝ) (a b : ℂ) : tauDelta atol a b ≤ 1 - atol :=
  min_le_right _ _

lemma tau_nonneg (atol : ℝ) (a b : ℂ) (h0 : 0 < atol) (h1 : atol ≤ 1) :
    0 ≤ tau atol a b := by
  unfold tau
  have hd0 : 0 ≤ tauDelta atol a b := tauDelta_nonneg atol a b h0 h1
  have hd1 : tauDelta atol a b ≤ 1 - atol := tauDelta_le atol a b
  have hpos : 0 < 1 - tauDelta atol a b := by linarith
  have hone : (1 : ℝ) ≤ (1 + tauDelta atol a b) / (1 - tauDelta atol a b) := by
    rw [le_div_iff₀ hpos]
    linarith
  have := Real.log_nonneg hone
  linarith

/-- When the denominator exceeds atol and the raw ratio is below
1 - atol, neither clamp of tau fires. -/
lemma tauDelta_unclamped (atol : ℝ) (a b : ℂ)
    (hden : atol < Complex.abs (1 - a * conj b))
    (hratio : Complex.abs (a - b) / Complex.abs (1 - a * conj b) < 1 - atol) :
    tauDelta atol a b = Complex.abs (a - b) / Complex.abs (1 - a * conj b) := by
  unfold tauDelta
  rw [max_eq_left hden.le, min_eq_left hratio.le]

end ComplexPoincareDiskMetric

/-- Claim C4: for all points a, b of the open unit disk and every scale
and tolerance, the distance is symmetric: dist(a, b) = dist(b, a). -/
theorem claim4_dist_symm (scale atol : ℝ) (a b : ℂ)
    (ha : Complex.abs a < 1) (hb : Complex.abs b < 1) :
    ComplexPoincareDiskMetric.dist scale atol a b
      = ComplexPoincareDiskMetric.dist scale atol b a := by
  unfold ComplexPoincareDiskMetric.dist ComplexPoincareDiskMetric.tau
  rw [ComplexPoincareDiskMetric.tauDelta_comm]

/-- Witness for claim C4 at a = 0, b = 1/2, scale = 1, atol = 1/2. -/
theorem claim4_dist_symm_witness :
    ComplexPoincareDiskMetric.dist 1 (1/2) 0 (1/2)
      = ComplexPoincareDiskMetric.dist 1 (1/2) (1/2) 0 := by
  have h : Complex.abs ((1:ℂ)/2) < 1 := by
    rw [show ((1:ℂ)/2) = (((1:ℝ)/2 : ℝ) : ℂ) by push_cast; ring]
    rw [Complex.abs_ofReal, abs_of_nonneg (by norm_num : (0:ℝ) ≤ 1/2)]
    norm_num
  exact claim4_dist_symm 1 (1/2) 0 (1/2) (by simp) h

namespace ComplexPoincareDisk

lemma abs_real_mul (r : ℝ) (z : ℂ) :
    Complex.abs ((r : ℂ) * z) = |r| * Complex.abs z := by
  rw [map_mul, Complex.abs_ofReal]

lemma abs_projection_of_boundary (atol : ℝ) (p : ℂ)
    (h1 : atol < 1) (hp : 1 - atol ≤ Complex.abs p) :
    Complex.abs (projection atol p) = 1 - atol := by
  have hap : 0 < Complex.abs p := by linarith
  unfold projection
  rw [if_pos hp, abs_real_mul,
      abs_of_nonneg (div_nonneg (by linarith) hap.le),
      div_mul_cancel₀ _ (ne_of_gt hap)]

lemma projection_fixed (atol : ℝ) (q : ℂ) (h1 : atol < 1)
    (hq : Complex.abs q = 1 - atol) :
    projection atol q = q := by
  unfold projection
  rw [hq, if_pos (le_refl _), div_self (by linarith : (1:ℝ) - atol ≠ 0)]
  push_cast
  rw [one_mul]

lemma abs_projection_lt_one (atol : ℝ) (p : ℂ)
    (h0 : 0 < atol) (h1 : atol < 1) :
    Complex.abs (projection atol p) < 1 := by
  by_cases hp : 1 - atol ≤ Complex.abs p
  · rw [abs_projection_of_boundary atol p h1 hp]
    linarith
  · unfold projection
    rw [if_neg hp]
    push_neg at hp
    linarith

end ComplexPoincareDisk

/-- Claim C5: dist(a, a) = 0 for every point a of the disk; dist(a, b) is
non-negative for all points a, b of the disk (the scale being
non-negative); in particular dist and squared_dist vanish at
point_a = point_b = 0 for any scale. -/
theorem claim5_dist_zero_nonneg (scale atol : ℝ) (a b : ℂ)
    (h0 : 0 < atol) (h1 : atol ≤ 1)
    (ha : Complex.abs a < 1) (hb : Complex.abs b < 1) :
    ComplexPoincareDiskMetric.dist scale atol a a = 0
    ∧ (0 ≤ scale → 0 ≤ ComplexPoincareDiskMetric.dist scale atol a b)
    ∧ ComplexPoincareDiskMetric.dist scale atol 0 0 = 0
    ∧ ComplexPoincareDiskMetric.squared_dist scale atol 0 0 = 0 := by
  have htau : ∀ c : ℂ, ComplexPoincareDiskMetric.tau atol c c = 0 := by
    intro c
    have hd : ComplexPoincareDiskMetric.tauDelta atol c c = 0 := by
      unfold ComplexPoincareDiskMetric.tauDelta
      rw [sub_self, map_zero, zero_div, min_eq_left (by linarith)]
    unfold ComplexPoincareDiskMetric.tau
    rw [hd]
    norm_num
  refine ⟨?_, ?_, ?_, ?_⟩
  · unfold ComplexPoincareDiskMetric.dist
    rw [htau a, zero_mul]
  · intro hs
    exact mul_nonneg (ComplexPoincareDiskMetric.tau_nonneg atol a b h0 h1) hs
  · unfold ComplexPoincareDiskMetric.dist
    rw [htau 0, zero_mul]
  · unfold ComplexPoincareDiskMetric.squared_dist
    rw [htau 0]
    ring

/-- Witness for claim C5 at a = 0, b = 1/2, scale = 1, atol = 1. -/
theorem claim5_dist_zero_nonneg_witness :
    ComplexPoincareDiskMetric.dist 1 1 0 0 = 0
    ∧ (0 ≤ (1:ℝ) → 0 ≤ ComplexPoincareDiskMetric.dist 1 1 0 ((1:ℂ)/2))
    ∧ ComplexPoincareDiskMetric.dist 1 1 0 0 = 0
    ∧ ComplexPoincareDiskMetric.squared_dist 1 1 0 0 = 0 := by
  have h : Complex.abs ((1:ℂ)/2) < 1 := by
    rw [show ((1:ℂ)/2) = (((1:ℝ)/2 : ℝ) : ℂ) by push_cast; ring]
    rw [Complex.abs_ofReal, abs_of_nonneg (by norm_num : (0:ℝ) ≤ 1/2)]
    norm_num
  exact claim5_dist_zero_nonneg 1 1 0 ((1:ℂ)/2) (by norm_num) (by norm_num)
    (by simp) h

/-- Claim C6: for every point p with |p| at least 1 - atol, projection
returns a point of modulus exactly 1 - atol with the angle of p, and the
result has modulus strictly below 1 (so it satisfies belongs). -/
theorem claim6_projection_boundary (atol : ℝ) (p : ℂ)
    (h0 : 0 < atol) (h1 : atol < 1) (hp : 1 - atol ≤ Complex.abs p) :
    Complex.abs (ComplexPoincareDisk.projection atol p) = 1 - atol
    ∧ (ComplexPoincareDisk.projection atol p).arg = p.arg
    ∧ Complex.abs (ComplexPoincareDisk.projection atol p) < 1 := by
  have hap : 0 < Complex.abs p := by linarith
  refine ⟨ComplexPoincareDisk.abs_projection_of_boundary atol p h1 hp, ?_, ?_⟩
  · unfold ComplexPoincareDisk.projection
    rw [if_pos hp]
    exact Complex.arg_real_mul p (div_pos (by linarith) hap)
  · exact ComplexPoincareDisk.abs_projection_lt_one atol p h0 h1

/-- Witness for claim C6 at a point of modulus 1 + 10^-9 and the backend
tolerance 10^-12. -/
theorem claim6_projection_boundary_witness :
    Complex.abs (ComplexPoincareDisk.projection ((1:ℝ)/1000000000000)
        (((1 + (1:ℝ)/1000000000 : ℝ)) : ℂ)) = 1 - (1:ℝ)/1000000000000
    ∧ (ComplexPoincareDisk.projection ((1:ℝ)/1000000000000)
        (((1 + (1:ℝ)/1000000000 : ℝ)) : ℂ)).arg
        = ((((1 + (1:ℝ)/1000000000 : ℝ)) : ℂ)).arg
    ∧ Complex.abs (ComplexPoincareDisk.projection ((1:ℝ)/1000000000000)
        (((1 + (1:ℝ)/1000000000 : ℝ)) : ℂ)) < 1 := by
  have habs : Complex.abs (((1 + (1:ℝ)/1000000000 : ℝ)) : ℂ)
      = 1 + (1:ℝ)/1000000000 := by
    rw [Complex.abs_ofReal, abs_of_nonneg (by norm_num)]
  exact claim6_projection_boundary ((1:ℝ)/1000000000000) _
    (by norm_num) (by norm_num) (by rw [habs]; norm_num)

/-- Claim C7: projection is idempotent on every point, and is the
identity on points of modulus strictly below 1 - atol. -/
theorem claim7_projection_idempotent (atol : ℝ) (p : ℂ) (h1 : atol < 1) :
    ComplexPoincareDisk.projection atol (ComplexPoincareDisk.projection atol p)
      = ComplexPoincareDisk.projection atol p
    ∧ (Complex.abs p < 1 - atol → ComplexPoincareDisk.projection atol p = p) := by
  constructor
  · by_cases hp : 1 - atol ≤ Complex.abs p
    · exact ComplexPoincareDisk.projection_fixed atol _ h1
        (ComplexPoincareDisk.abs_projection_of_boundary atol p h1 hp)
    · have hid : ComplexPoincareDisk.projection atol p = p := by
        unfold ComplexPoincareDisk.projection
        rw [if_neg hp]
      rw [hid, hid]
  · intro hp
    unfold ComplexPoincareDisk.projection
    rw [if_neg (by linarith)]

/-- Witness for claim C7 at p = 2, atol = 1/2. -/
theorem claim7_projection_idempotent_witness :
    ComplexPoincareDisk.projection (1/2)
        (ComplexPoincareDisk.projection (1/2) 2)
      = ComplexPoincareDisk.projection (1/2) 2
    ∧ (Complex.abs (2:ℂ) < 1 - 1/2 → ComplexPoincareDisk.projection (1/2) 2 = 2) :=
  claim7_projection_idempotent (1/2) 2 (by norm_num)

/-- Claim C3 counterexample: with tolerance 3/2 (positive) and both
points 0, the helper tau is strictly negative, refuting non-negativity
of tau for every positive tolerance. -/
theorem claim3_counterexample :
    ComplexPoincareDiskMetric.tau (3/2) 0 0 < 0 := by
  have hd : ComplexPoincareDiskMetric.tauDelta (3/2) 0 0 = -(1/2) := by
    unfold ComplexPoincareDiskMetric.tauDelta
    simp
    norm_num
  unfold ComplexPoincareDiskMetric.tau
  rw [hd]
  have harg : (1 + -((1:ℝ)/2)) / (1 - -((1:ℝ)/2)) = 1/3 := by norm_num
  rw [harg]
  have hlog : Real.log ((1:ℝ)/3) < 0 :=
    Real.log_neg (by norm_num) (by norm_num)
  linarith

/-- Claim C3 amended: the helper tau is a non-negative real value for
every tolerance with 0 < atol ≤ 1, and squared_dist is the square of
dist for every pair of inputs, every scale and every tolerance. -/
theorem claim3_tau_nonneg_squared (scale atol : ℝ) (a b : ℂ) :
    (0 < atol → atol ≤ 1 → 0 ≤ ComplexPoincareDiskMetric.tau atol a b)
    ∧ ComplexPoincareDiskMetric.squared_dist scale atol a b
        = (ComplexPoincareDiskMetric.dist scale atol a b)^2 := by
  refine ⟨fun h0 h1 => ComplexPoincareDiskMetric.tau_nonneg atol a b h0 h1, ?_⟩
  unfold ComplexPoincareDiskMetric.squared_dist ComplexPoincareDiskMetric.dist
  ring

/-- Witness for the amended claim C3 at scale = 1, atol = 1, a = b = 0. -/
theorem claim3_tau_nonneg_squared_witness :
    0 ≤ ComplexPoincareDiskMetric.tau 1 0 0
    ∧ ComplexPoincareDiskMetric.squared_dist 1 1 0 0
        = (ComplexPoincareDiskMetric.dist 1 1 0 0)^2 :=
  ⟨(claim3_tau_nonneg_squared 1 1 0 0).1 (by norm_num) (by norm_num),
   (claim3_tau_nonneg_squared 1 1 0 0).2⟩

/-- Claim C10: for every pair of complex inputs (also outside the disk)
and every tolerance strictly between 0 and 1, dist is non-negative and
bounded above by scale (1/2) log((2 - atol)/atol), and squared_dist by
its square; in particular both are finite. -/
theorem claim10_dist_finite_bounded (scale atol : ℝ) (a b : ℂ)
    (h0 : 0 < atol) (h1 : atol < 1) (hs : 0 ≤ scale) :
    0 ≤ ComplexPoincareDiskMetric.dist scale atol a b
    ∧ ComplexPoincareDiskMetric.dist scale atol a b
        ≤ scale * ((1/2) * Real.log ((2 - atol)/atol))
    ∧ ComplexPoincareDiskMetric.squared_dist scale atol a b
        ≤ (scale * ((1/2) * Real.log ((2 - atol)/atol)))^2 := by
  have htau0 := ComplexPoincareDiskMetric.tau_nonneg atol a b h0 h1.le
  have htau_le : ComplexPoincareDiskMetric.tau atol a b
      ≤ (1/2) * Real.log ((2 - atol)/atol) := by
    have hd0 := ComplexPoincareDiskMetric.tauDelta_nonneg atol a b h0 h1.le
    have hd1 := ComplexPoincareDiskMetric.tauDelta_le atol a b
    have hd2 : 0 < 1 - ComplexPoincareDiskMetric.tauDelta atol a b := by linarith
    have hlog : Real.log ((1 + ComplexPoincareDiskMetric.tauDelta atol a b)
        / (1 - ComplexPoincareDiskMetric.tauDelta atol a b))
        ≤ Real.log ((2 - atol)/atol) := by
      apply Real.log_le_log (div_pos (by linarith) hd2)
      rw [div_le_div_iff₀ hd2 h0]
      nlinarith
    unfold ComplexPoincareDiskMetric.tau
    linarith
  have hdist0 : 0 ≤ ComplexPoincareDiskMetric.dist scale atol a b :=
    mul_nonneg htau0 hs
  have hdist_le : ComplexPoincareDiskMetric.dist scale atol a b
      ≤ scale * ((1/2) * Real.log ((2 - atol)/atol)) := by
    unfold ComplexPoincareDiskMetric.dist
    calc ComplexPoincareDiskMetric.tau atol a b * scale
        ≤ ((1/2) * Real.log ((2 - atol)/atol)) * scale :=
          mul_le_mul_of_nonneg_right htau_le hs
      _ = scale * ((1/2) * Real.log ((2 - atol)/atol)) := mul_comm _ _
  refine ⟨hdist0, hdist_le, ?_⟩
  have hpow := pow_le_pow_left₀ hdist0 hdist_le 2
  calc ComplexPoincareDiskMetric.squared_dist scale atol a b
      = (ComplexPoincareDiskMetric.dist scale atol a b)^2 := by
        unfold ComplexPoincareDiskMetric.squared_dist
          ComplexPoincareDiskMetric.dist
        ring
    _ ≤ (scale * ((1/2) * Real.log ((2 - atol)/atol)))^2 := hpow

/-- Witness for claim C10 at scale = 1, atol = 1/2, a = b = 0. -/
theorem claim10_dist_finite_bounded_witness :
    0 ≤ ComplexPoincareDiskMetric.dist 1 (1/2) 0 0
    ∧ ComplexPoincareDiskMetric.dist 1 (1/2) 0 0
        ≤ 1 * ((1/2) * Real.log ((2 - 1/2)/(1/2)))
    ∧ ComplexPoincareDiskMetric.squared_dist 1 (1/2) 0 0
        ≤ (1 * ((1/2) * Real.log ((2 - 1/2)/(1/2))))^2 :=
  claim10_dist_finite_bounded 1 (1/2) 0 0 (by norm_num) (by norm_num) (by norm_num)

/-- Claim C8: an entry of belongs holds exactly when the input has the
accepted shape (rank 1, or rank 2 with second dimension 1) and every
component of that entry has modulus strictly below one; the result does
not depend on the tolerance argument. -/
theorem claim8_belongs_shape_modulus (a : ComplexPoincareDisk.CArr)
    (atol atol2 : ℝ) (i : ℕ) (h : i < a.rows.length) :
    ((ComplexPoincareDisk.belongs a atol).getD i False
      ↔ ((a.ndim = 1 ∨ (a.ndim = 2 ∧ a.cols = 1))
          ∧ ∀ z ∈ a.rows.getD i [], Complex.abs z < 1))
    ∧ ComplexPoincareDisk.belongs a atol = ComplexPoincareDisk.belongs a atol2 := by
  constructor
  · have hlen : i < (ComplexPoincareDisk.belongs a atol).length := by
      simpa [ComplexPoincareDisk.belongs] using h
    rw [List.getD_eq_getElem?_getD, List.getElem?_eq_getElem hlen]
    rw [List.getD_eq_getElem?_getD, List.getElem?_eq_getElem h]
    simp [ComplexPoincareDisk.belongs, ComplexPoincareDisk.isScalarShape]
  · rfl

/-- Witness for claim C8 on a rank-1 array holding the single point 0. -/
theorem claim8_belongs_shape_modulus_witness :
    ((ComplexPoincareDisk.belongs ⟨1, 0, [[0]]⟩ 1).getD 0 False
      ↔ (((1:ℕ) = 1 ∨ ((1:ℕ) = 2 ∧ (0:ℕ) = 1))
          ∧ ∀ z ∈ ([[(0:ℂ)]] : List (List ℂ)).getD 0 [], Complex.abs z < 1))
    ∧ ComplexPoincareDisk.belongs ⟨1, 0, [[0]]⟩ 1
        = ComplexPoincareDisk.belongs ⟨1, 0, [[0]]⟩ 2 :=
  claim8_belongs_shape_modulus ⟨1, 0, [[0]]⟩ 1 2 0 (by simp)

/-- Claim C9: every point produced by random_point (draws in the unit
square, any positive bound, at least one sample) has modulus strictly
below 1 and satisfies belongs. -/
theorem claim9_random_point_in_disk (atol bound : ℝ) (draws : List (ℝ × ℝ))
    (h0 : 0 < atol) (h1 : atol < 1) (hb : 0 < bound) (hn : 1 ≤ draws.length)
    (hdraws : ∀ d ∈ draws, 0 ≤ d.1 ∧ d.1 < 1 ∧ 0 ≤ d.2 ∧ d.2 < 1) :
    (∀ p ∈ ComplexPoincareDisk.random_point atol bound draws, Complex.abs p < 1)
    ∧ ∀ P ∈ ComplexPoincareDisk.belongs
        ⟨2, 1, (ComplexPoincareDisk.random_point atol bound draws).map (fun p => [p])⟩
        atol, P := by
  have key : ∀ p ∈ ComplexPoincareDisk.random_point atol bound draws,
      Complex.abs p < 1 := by
    intro p hp
    unfold ComplexPoincareDisk.random_point at hp
    rw [List.mem_map] at hp
    obtain ⟨d, _, rfl⟩ := hp
    exact ComplexPoincareDisk.abs_projection_lt_one atol _ h0 h1
  refine ⟨key, ?_⟩
  intro P hP
  simp only [ComplexPoincareDisk.belongs, List.map_map, List.mem_map,
    Function.comp_apply] at hP
  obtain ⟨p, hp, rfl⟩ := hP
  refine ⟨rfl, ?_⟩
  intro z hz
  rw [List.mem_singleton] at hz
  rw [hz]
  exact key p hp

/-- Witness for claim C9 with one draw (0, 0), atol = 1/2, bound = 1. -/
theorem claim9_random_point_in_disk_witness :
    (∀ p ∈ ComplexPoincareDisk.random_point (1/2) 1 [((0:ℝ), (0:ℝ))],
      Complex.abs p < 1)
    ∧ ∀ P ∈ ComplexPoincareDisk.belongs
        ⟨2, 1, (ComplexPoincareDisk.random_point (1/2) 1 [((0:ℝ), (0:ℝ))]).map
          (fun p => [p])⟩ (1/2), P :=
  claim9_random_point_in_disk (1/2) 1 [((0:ℝ), (0:ℝ))]
    (by norm_num) (by norm_num) (by norm_num) (by simp)
    (by intro d hd; rw [List.mem_singleton] at hd; subst hd; norm_num)

namespace ComplexPoincareDiskMetric

/-- Evaluation of the exponential map at base point 0 with the real
tangent vector 1/2: theta = 0, s = 1, so the map returns
(1 - e^(-1)) / (1 + e^(-1)). -/
lemma exp_half_at_zero :
    exp (((1:ℝ)/2 : ℝ) : ℂ) 0
      = (((1 - Real.exp (-1)) / (1 + Real.exp (-1)) : ℝ) : ℂ) := by
  have harg : Complex.arg (((1:ℝ)/2 : ℝ) : ℂ) = 0 :=
    Complex.arg_ofReal_of_nonneg (by norm_num)
  have habs : Complex.abs (((1:ℝ)/2 : ℝ) : ℂ) = 1/2 := by
    rw [Complex.abs_ofReal, abs_of_nonneg (by norm_num : (0:ℝ) ≤ 1/2)]
  have hS : expS (((1:ℝ)/2 : ℝ) : ℂ) 0 = 1 := by
    unfold expS
    rw [habs, map_zero]
    norm_num
  have hE : exp_i_theta (((1:ℝ)/2 : ℝ) : ℂ) = 1 := by
    unfold exp_i_theta
    rw [harg]
    push_cast
    rw [mul_zero, Complex.exp_zero]
  have hM : exp_minus_s (((1:ℝ)/2 : ℝ) : ℂ) 0 = ((Real.exp (-1) : ℝ) : ℂ) := by
    unfold exp_minus_s
    rw [hS]
  unfold exp
  rw [hE, hM, map_zero]
  push_cast
  ring_nf

end ComplexPoincareDiskMetric

/-- Claim C2 counterexample: with base_point = 0 and tangent_vec = 0.5,
the exponential map does not return 0.5 (it returns tanh(1/2)). -/
theorem claim2_counterexample :
    ComplexPoincareDiskMetric.exp ((1:ℂ)/2) 0 ≠ (1:ℂ)/2 := by
  have hc : ((1:ℂ)/2) = (((1:ℝ)/2 : ℝ) : ℂ) := by push_cast; ring
  rw [hc, ComplexPoincareDiskMetric.exp_half_at_zero]
  intro h
  have h2 : (1 - Real.exp (-1)) / (1 + Real.exp (-1)) = 1/2 := by
    exact_mod_cast h
  have hepos : 0 < Real.exp 1 := Real.exp_pos 1
  have hlt : Real.exp 1 < 3 := lt_trans Real.exp_one_lt_d9 (by norm_num)
  have hden : 0 < 1 + Real.exp (-1) := by positivity
  have hm : Real.exp (-1) = 1/3 := by
    field_simp at h2
    linarith
  rw [Real.exp_neg] at hm
  have h3 : Real.exp 1 * (1/3) = 1 := by
    rw [← hm]
    exact mul_inv_cancel₀ (ne_of_gt hepos)
  linarith

/-- Claim C2 amended: with scale = 1 (exp ignores the scale),
base_point = 0 and tangent_vec = 0.5, the exponential map returns
(1 - e^(-1)) / (1 + e^(-1)) = tanh(1/2), approximately 0.462. -/
theorem claim2_exp_half (scale : ℝ) (hs : scale = 1) :
    ComplexPoincareDiskMetric.exp ((1:ℂ)/2) 0
      = (((1 - Real.exp (-1)) / (1 + Real.exp (-1)) : ℝ) : ℂ) := by
  have hc : ((1:ℂ)/2) = (((1:ℝ)/2 : ℝ) : ℂ) := by push_cast; ring
  rw [hc]
  exact ComplexPoincareDiskMetric.exp_half_at_zero

/-- Witness for the amended claim C2 at scale = 1. -/
theorem claim2_exp_half_witness :
    ComplexPoincareDiskMetric.exp ((1:ℂ)/2) 0
      = (((1 - Real.exp (-1)) / (1 + Real.exp (-1)) : ℝ) : ℂ) :=
  claim2_exp_half 1 rfl

namespace ComplexPoincareDiskMetric

lemma exp_I_arg (z : ℂ) (hz : z ≠ 0) :
    Complex.exp (Complex.I * ((Complex.arg z : ℝ) : ℂ))
      = z / ((Complex.abs z : ℝ) : ℂ) := by
  have habs : ((Complex.abs z : ℝ) : ℂ) ≠ 0 :=
    Complex.ofReal_ne_zero.mpr (Complex.abs.ne_zero hz)
  rw [mul_comm, eq_div_iff habs, mul_comm]
  exact Complex.abs_mul_exp_arg_mul_I z

lemma exp_I_sub_arg (z1 z2 : ℂ) (h1 : z1 ≠ 0) (h2 : z2 ≠ 0) :
    Complex.exp (Complex.I * ((Complex.arg z1 - Complex.arg z2 : ℝ) : ℂ))
      = (z1 / ((Complex.abs z1 : ℝ) : ℂ)) / (z2 / ((Complex.abs z2 : ℝ) : ℂ)) := by
  have hsplit : Complex.I * ((Complex.arg z1 - Complex.arg z2 : ℝ) : ℂ)
      = Complex.I * ((Complex.arg z1 : ℝ) : ℂ)
        - Complex.I * ((Complex.arg z2 : ℝ) : ℂ) := by
    push_cast
    ring
  rw [hsplit, Complex.exp_sub, exp_I_arg z1 h1, exp_I_arg z2 h2]

/-- The angle factor of log, written through the Moebius quotient
q = (p - b) / (1 - conj(b) p): it is the unit vector q / |q|. -/
lemma exp_I_angle_eq (b p : ℂ) (hpb : p - b ≠ 0) (hD : 1 - conj b * p ≠ 0) :
    Complex.exp (Complex.I *
        ((Complex.arg (p - b) - Complex.arg (1 - conj b * p) : ℝ) : ℂ))
      = ((p - b) / (1 - conj b * p))
        / ((Complex.abs ((p - b) / (1 - conj b * p)) : ℝ) : ℂ) := by
  rw [exp_I_sub_arg _ _ hpb hD, map_div₀]
  have h1 : ((Complex.abs (p - b) : ℝ) : ℂ) ≠ 0 :=
    Complex.ofReal_ne_zero.mpr (Complex.abs.ne_zero hpb)
  have h2 : ((Complex.abs (1 - conj b * p) : ℝ) : ℂ) ≠ 0 :=
    Complex.ofReal_ne_zero.mpr (Complex.abs.ne_zero hD)
  push_cast
  field_simp
  ring

lemma mul_conj_self (b : ℂ) :
    b * conj b = (((Complex.abs b)^2 : ℝ) : ℂ) := by
  rw [Complex.mul_conj, Complex.normSq_eq_abs]

lemma one_sub_sq_abs_pos (b : ℂ) (hb : Complex.abs b < 1) :
    0 < 1 - (Complex.abs b)^2 := by
  have h := pow_lt_one₀ (Complex.abs.nonneg b) hb (two_ne_zero)
  linarith

lemma one_add_conj_mul_ne_zero (b w : ℂ)
    (hb : Complex.abs b < 1) (hw : Complex.abs w < 1) :
    1 + conj b * w ≠ 0 := by
  intro h
  have h2 : conj b * w = -1 := by linear_combination h
  have h3 : Complex.abs (conj b * w) = 1 := by
    rw [h2]
    simp
  rw [map_mul, Complex.abs_conj] at h3
  nlinarith [Complex.abs.nonneg b, Complex.abs.nonneg w]

lemma one_sub_conj_mul_ne_zero (b p : ℂ)
    (hb : Complex.abs b < 1) (hp : Complex.abs p < 1) :
    1 - conj b * p ≠ 0 := by
  intro h
  have h2 : conj b * p = 1 := by linear_combination -h
  have h3 : Complex.abs (conj b * p) = 1 := by
    rw [h2]
    simp
  rw [map_mul, Complex.abs_conj] at h3
  nlinarith [Complex.abs.nonneg b, Complex.abs.nonneg p]

/-- Proof abbreviation: the tangent direction scaled by tanh(s/2),
with tanh(s/2) written as (1 - e^(-s)) / (1 + e^(-s)); the exponential
map is the Moebius transform of base_point applied to this vector. -/
def moebiusW (tangent_vec base_point : ℂ) : ℂ :=
  (((1 - Real.exp (-(expS tangent_vec base_point)))
    / (1 + Real.exp (-(expS tangent_vec base_point))) : ℝ) : ℂ)
  * exp_i_theta tangent_vec

lemma abs_exp_i_theta (t : ℂ) : Complex.abs (exp_i_theta t) = 1 := by
  unfold exp_i_theta
  rw [mul_comm]
  exact Complex.abs_exp_ofReal_mul_I _

lemma exp_i_theta_ne_zero (t : ℂ) : exp_i_theta t ≠ 0 := by
  intro h
  have := abs_exp_i_theta t
  rw [h, map_zero] at this
  norm_num at this

lemma exp_eq_moebius (t b : ℂ) :
    exp t b = (b + moebiusW t b) / (1 + conj b * moebiusW t b) := by
  set m := Real.exp (-(expS t b)) with hm
  have hm0 : 0 < m := Real.exp_pos _
  have hm1 : (0:ℝ) < 1 + m := by linarith
  have hmc : ((1 : ℂ) + (m : ℂ)) ≠ 0 := by
    have : ((1 + m : ℝ) : ℂ) ≠ 0 := Complex.ofReal_ne_zero.mpr (ne_of_gt hm1)
    push_cast at this
    exact this
  have hnum : b + exp_i_theta t + (b - exp_i_theta t) * exp_minus_s t b
      = ((1 : ℂ) + (m : ℂ)) * (b + moebiusW t b) := by
    unfold exp_minus_s moebiusW
    rw [← hm]
    push_cast
    field_simp
    ring
  have hden : 1 + conj b * exp_i_theta t
        + (1 - conj b * exp_i_theta t) * exp_minus_s t b
      = ((1 : ℂ) + (m : ℂ)) * (1 + conj b * moebiusW t b) := by
    unfold exp_minus_s moebiusW
    rw [← hm]
    push_cast
    field_simp
    ring
  unfold exp
  rw [hnum, hden, mul_div_mul_left _ _ hmc]

lemma abs_moebiusW (t b : ℂ) (hb : Complex.abs b < 1) :
    Complex.abs (moebiusW t b)
      = (1 - Real.exp (-(expS t b))) / (1 + Real.exp (-(expS t b))) := by
  have hs : 0 ≤ expS t b :=
    div_nonneg (by positivity) (one_sub_sq_abs_pos b hb).le
  have hm1 : Real.exp (-(expS t b)) ≤ 1 := by
    rw [show (1:ℝ) = Real.exp 0 by rw [Real.exp_zero]]
    exact Real.exp_le_exp.mpr (by linarith)
  have hm0 : 0 < Real.exp (-(expS t b)) := Real.exp_pos _
  unfold moebiusW
  rw [map_mul, abs_exp_i_theta, mul_one, Complex.abs_ofReal,
    abs_of_nonneg (div_nonneg (by linarith) (by linarith))]

lemma abs_moebiusW_lt_one (t b : ℂ) (hb : Complex.abs b < 1) :
    Complex.abs (moebiusW t b) < 1 := by
  rw [abs_moebiusW t b hb]
  have hm0 : 0 < Real.exp (-(expS t b)) := Real.exp_pos _
  rw [div_lt_one (by linarith)]
  linarith

lemma moebius_image_sub (b w : ℂ) (hD : 1 + conj b * w ≠ 0) :
    (b + w) / (1 + conj b * w) - b
      = w * (((1 - (Complex.abs b)^2 : ℝ)) : ℂ) / (1 + conj b * w) := by
  have hbb := mul_conj_self b
  push_cast at hbb
  field_simp
  linear_combination (-w) * hbb

lemma moebius_image_one_sub (b w : ℂ) (hD : 1 + conj b * w ≠ 0) :
    1 - conj b * ((b + w) / (1 + conj b * w))
      = (((1 - (Complex.abs b)^2 : ℝ)) : ℂ) / (1 + conj b * w) := by
  have hbb := mul_conj_self b
  push_cast at hbb
  field_simp
  linear_combination -hbb

lemma moebius_inverse (b p : ℂ)
    (hb : Complex.abs b < 1) (hp : Complex.abs p < 1) :
    (b + (p - b) / (1 - conj b * p))
      / (1 + conj b * ((p - b) / (1 - conj b * p))) = p := by
  have hD : 1 - conj b * p ≠ 0 := one_sub_conj_mul_ne_zero b p hb hp
  have hC : (1 : ℂ) - conj b * b ≠ 0 := by
    have := one_sub_conj_mul_ne_zero b b hb hb
    exact this
  have h1 : 1 + conj b * ((p - b) / (1 - conj b * p))
      = (1 - conj b * b) / (1 - conj b * p) := by
    field_simp
    ring
  have h2 : b + (p - b) / (1 - conj b * p)
      = p * (1 - conj b * b) / (1 - conj b * p) := by
    field_simp
    ring
  rw [h1, h2]
  field_simp

end ComplexPoincareDiskMetric

namespace ComplexPoincareDiskMetric

lemma ratio_algebra (x : ℝ) (h1 : 0 < 1 + x) :
    (1 - (1 - x) / (1 + x)) / (1 + (1 - x) / (1 + x)) = x := by
  have hne : (1 + x) ≠ 0 := ne_of_gt h1
  have ha1 : 1 - (1 - x) / (1 + x) = (2 * x) / (1 + x) := by
    field_simp
    ring
  have ha2 : 1 + (1 - x) / (1 + x) = 2 / (1 + x) := by
    field_simp
    ring
  rw [ha1, ha2, div_div_div_comm, div_self hne]
  ring

lemma inv_ratio_algebra (m : ℝ) (h0 : 0 < m) :
    (1 + (1 - m) / (1 + m)) / (1 - (1 - m) / (1 + m)) = 1 / m := by
  have h1 : (0:ℝ) < 1 + m := by linarith
  have hne : (1 + m) ≠ 0 := ne_of_gt h1
  have ha1 : 1 + (1 - m) / (1 + m) = 2 / (1 + m) := by
    field_simp
    ring
  have ha2 : 1 - (1 - m) / (1 + m) = (2 * m) / (1 + m) := by
    field_simp
    ring
  rw [ha1, ha2, div_div_div_comm, div_self hne, div_one]
  rw [div_eq_div_iff (by positivity) (ne_of_gt h0)]
  ring

lemma exp_zero_vec (b : ℂ) : exp 0 b = b := by
  have hE : exp_i_theta (0 : ℂ) = 1 := by
    unfold exp_i_theta
    rw [Complex.arg_zero]
    push_cast
    rw [mul_zero, Complex.exp_zero]
  have hS : expS (0 : ℂ) b = 0 := by
    unfold expS
    rw [map_zero]
    ring_nf
  have hM : exp_minus_s (0 : ℂ) b = 1 := by
    unfold exp_minus_s
    rw [hS]
    norm_num
  unfold exp
  rw [hE, hM]
  have hden : (1 : ℂ) + conj b * 1 + (1 - conj b * 1) * 1 = 2 := by ring
  have hnum : b + 1 + (b - 1) * 1 = 2 * b := by ring
  rw [hden, hnum]
  rw [mul_comm, mul_div_assoc]
  norm_num

lemma exp_log_eq (atol : ℝ) (b p : ℂ) (h0 : 0 < atol)
    (hb : Complex.abs b < 1) (hp : Complex.abs p < 1)
    (hden : atol < Complex.abs (1 - b * conj p))
    (hratio : Complex.abs (b - p) / Complex.abs (1 - b * conj p) < 1 - atol) :
    exp (log atol p b) b = p := by
  have hD : 1 - conj b * p ≠ 0 := one_sub_conj_mul_ne_zero b p hb hp
  have hC0 : 0 < 1 - (Complex.abs b)^2 := one_sub_sq_abs_pos b hb
  have habs_q : Complex.abs ((p - b) / (1 - conj b * p))
      = Complex.abs (b - p) / Complex.abs (1 - b * conj p) := by
    rw [map_div₀, Complex.abs.map_sub p b, mul_comm (conj b) p,
      abs_one_sub_mul_conj_comm p b]
  have hdelta : tauDelta atol b p
      = Complex.abs ((p - b) / (1 - conj b * p)) := by
    rw [tauDelta_unclamped atol b p hden hratio, habs_q]
  have hq1 : Complex.abs ((p - b) / (1 - conj b * p)) < 1 := by
    rw [habs_q]
    linarith
  rcases eq_or_ne ((p - b) / (1 - conj b * p)) 0 with hq | hq
  · have hpb : p = b := by
      rcases div_eq_zero_iff.mp hq with h | h
      · exact sub_eq_zero.mp h
      · exact absurd h hD
    subst hpb
    have htau0 : tau atol p p = 0 := by
      unfold tau
      rw [hdelta, hq, map_zero]
      norm_num
    have hlog0 : log atol p p = 0 := by
      unfold log
      rw [htau0]
      push_cast
      ring
    rw [hlog0]
    exact exp_zero_vec p
  · have hpb_ne : p - b ≠ 0 := by
      intro h
      apply hq
      rw [h, zero_div]
    have hq_pos : 0 < Complex.abs ((p - b) / (1 - conj b * p)) :=
      Complex.abs.pos hq
    have hq2 : 0 < 1 - Complex.abs ((p - b) / (1 - conj b * p)) := by linarith
    have hR : 0 < (1 + Complex.abs ((p - b) / (1 - conj b * p)))
        / (1 - Complex.abs ((p - b) / (1 - conj b * p))) :=
      div_pos (by linarith) hq2
    have hratio1 : 1 < (1 + Complex.abs ((p - b) / (1 - conj b * p)))
        / (1 - Complex.abs ((p - b) / (1 - conj b * p))) := by
      rw [lt_div_iff₀ hq2]
      linarith
    have htau_def : tau atol b p
        = (1/2) * Real.log ((1 + Complex.abs ((p - b) / (1 - conj b * p)))
            / (1 - Complex.abs ((p - b) / (1 - conj b * p)))) := by
      unfold tau
      rw [hdelta]
    have htau_pos : 0 < tau atol b p := by
      rw [htau_def]
      have := Real.log_pos hratio1
      linarith
    have hangle := exp_I_angle_eq b p hpb_ne hD
    have hlog_eq : log atol p b
        = ((tau atol b p : ℝ) : ℂ)
          * (((p - b) / (1 - conj b * p))
              / ((Complex.abs ((p - b) / (1 - conj b * p)) : ℝ) : ℂ))
          * (((1 - (Complex.abs b)^2 : ℝ)) : ℂ) := by
      unfold log
      rw [hangle]
    have habs_unit : Complex.abs (((p - b) / (1 - conj b * p))
        / ((Complex.abs ((p - b) / (1 - conj b * p)) : ℝ) : ℂ)) = 1 := by
      rw [map_div₀, Complex.abs_ofReal, abs_of_pos hq_pos, div_self (ne_of_gt hq_pos)]
    have habs_log : Complex.abs (log atol p b)
        = tau atol b p * (1 - (Complex.abs b)^2) := by
      rw [hlog_eq, map_mul, map_mul, habs_unit, Complex.abs_ofReal,
        Complex.abs_ofReal, abs_of_pos htau_pos, abs_of_pos hC0]
      ring
    have hs_eq : expS (log atol p b) b = 2 * tau atol b p := by
      unfold expS
      rw [habs_log]
      field_simp
      ring
    have hm_eq : Real.exp (-(expS (log atol p b) b))
        = (1 - Complex.abs ((p - b) / (1 - conj b * p)))
          / (1 + Complex.abs ((p - b) / (1 - conj b * p))) := by
      rw [hs_eq, htau_def,
        show -(2 * ((1/2) * Real.log ((1 + Complex.abs ((p - b) / (1 - conj b * p)))
            / (1 - Complex.abs ((p - b) / (1 - conj b * p))))))
          = -Real.log ((1 + Complex.abs ((p - b) / (1 - conj b * p)))
            / (1 - Complex.abs ((p - b) / (1 - conj b * p)))) by ring,
        Real.exp_neg, Real.exp_log hR, inv_div]
    have hr_eq : (1 - Real.exp (-(expS (log atol p b) b)))
        / (1 + Real.exp (-(expS (log atol p b) b)))
        = Complex.abs ((p - b) / (1 - conj b * p)) := by
      rw [hm_eq]
      exact ratio_algebra _ (by linarith)
    have hlog_ne : log atol p b ≠ 0 := by
      intro h
      have h2 := habs_log
      rw [h, map_zero] at h2
      nlinarith
    have hq_ne : ((Complex.abs ((p - b) / (1 - conj b * p)) : ℝ) : ℂ) ≠ 0 :=
      Complex.ofReal_ne_zero.mpr (ne_of_gt hq_pos)
    have htau_ne : ((tau atol b p : ℝ) : ℂ) ≠ 0 :=
      Complex.ofReal_ne_zero.mpr (ne_of_gt htau_pos)
    have hC_ne : (((1 - (Complex.abs b)^2 : ℝ)) : ℂ) ≠ 0 :=
      Complex.ofReal_ne_zero.mpr (ne_of_gt hC0)
    have hE_eq : exp_i_theta (log atol p b)
        = ((p - b) / (1 - conj b * p))
          / ((Complex.abs ((p - b) / (1 - conj b * p)) : ℝ) : ℂ) := by
      have h1 : exp_i_theta (log atol p b)
          = log atol p b / ((Complex.abs (log atol p b) : ℝ) : ℂ) := by
        unfold exp_i_theta
        exact exp_I_arg (log atol p b) hlog_ne
      rw [h1, habs_log, hlog_eq, Complex.ofReal_mul]
      rw [show ((tau atol b p : ℝ) : ℂ)
            * (((p - b) / (1 - conj b * p))
                / ((Complex.abs ((p - b) / (1 - conj b * p)) : ℝ) : ℂ))
            * (((1 - (Complex.abs b)^2 : ℝ)) : ℂ)
          = (((tau atol b p : ℝ) : ℂ) * (((1 - (Complex.abs b)^2 : ℝ)) : ℂ))
            * (((p - b) / (1 - conj b * p))
                / ((Complex.abs ((p - b) / (1 - conj b * p)) : ℝ) : ℂ)) by ring]
      exact mul_div_cancel_left₀ _ (mul_ne_zero htau_ne hC_ne)
    have hW : moebiusW (log atol p b) b = (p - b) / (1 - conj b * p) := by
      unfold moebiusW
      rw [hE_eq, hr_eq, mul_comm, div_mul_cancel₀ _ hq_ne]
    rw [exp_eq_moebius, hW]
    exact moebius_inverse b p hb hp

end ComplexPoincareDiskMetric

namespace ComplexPoincareDiskMetric

lemma log_exp_eq (atol : ℝ) (b t : ℂ) (h0 : 0 < atol) (hb : Complex.abs b < 1)
    (hden : atol < Complex.abs (1 - b * conj (exp t b)))
    (hratio : Complex.abs (b - exp t b)
        / Complex.abs (1 - b * conj (exp t b)) < 1 - atol) :
    log atol (exp t b) b = t := by
  have hC0 : 0 < 1 - (Complex.abs b)^2 := one_sub_sq_abs_pos b hb
  have hC_ne : (((1 - (Complex.abs b)^2 : ℝ)) : ℂ) ≠ 0 :=
    Complex.ofReal_ne_zero.mpr (ne_of_gt hC0)
  have hw1 : Complex.abs (moebiusW t b) < 1 := abs_moebiusW_lt_one t b hb
  have hD : 1 + conj b * moebiusW t b ≠ 0 :=
    one_add_conj_mul_ne_zero b (moebiusW t b) hb hw1
  have hP := exp_eq_moebius t b
  have hsub : exp t b - b
      = moebiusW t b * (((1 - (Complex.abs b)^2 : ℝ)) : ℂ)
        / (1 + conj b * moebiusW t b) := by
    rw [hP]
    exact moebius_image_sub b (moebiusW t b) hD
  have hone : 1 - conj b * exp t b
      = (((1 - (Complex.abs b)^2 : ℝ)) : ℂ) / (1 + conj b * moebiusW t b) := by
    rw [hP]
    exact moebius_image_one_sub b (moebiusW t b) hD
  have habsD : 0 < Complex.abs (1 + conj b * moebiusW t b) :=
    Complex.abs.pos hD
  have habs_sub : Complex.abs (b - exp t b)
      = Complex.abs (moebiusW t b) * (1 - (Complex.abs b)^2)
        / Complex.abs (1 + conj b * moebiusW t b) := by
    rw [Complex.abs.map_sub b (exp t b), hsub, map_div₀, map_mul,
      Complex.abs_ofReal, abs_of_pos hC0]
  have habs_den : Complex.abs (1 - b * conj (exp t b))
      = (1 - (Complex.abs b)^2) / Complex.abs (1 + conj b * moebiusW t b) := by
    rw [abs_one_sub_mul_conj_comm b (exp t b), mul_comm (exp t b) (conj b),
      hone, map_div₀, Complex.abs_ofReal, abs_of_pos hC0]
  have hfrac : 0 < (1 - (Complex.abs b)^2)
      / Complex.abs (1 + conj b * moebiusW t b) := div_pos hC0 habsD
  have hdelta : tauDelta atol b (exp t b) = Complex.abs (moebiusW t b) := by
    rw [tauDelta_unclamped atol b (exp t b) hden hratio, habs_sub, habs_den,
      mul_div_assoc]
    exact mul_div_cancel_right₀ _ (ne_of_gt hfrac)
  rcases eq_or_ne t 0 with ht | ht
  · subst ht
    have hS0 : expS 0 b = 0 := by
      unfold expS
      rw [map_zero]
      ring_nf
    have hw0 : moebiusW 0 b = 0 := by
      unfold moebiusW
      rw [hS0]
      norm_num
    have htau0 : tau atol b (exp 0 b) = 0 := by
      unfold tau
      rw [hdelta, hw0, map_zero]
      norm_num
    unfold log
    rw [htau0]
    push_cast
    ring
  · have ht_abs : 0 < Complex.abs t := Complex.abs.pos ht
    have hs_pos : 0 < expS t b := div_pos (by linarith) hC0
    have hm0 : 0 < Real.exp (-(expS t b)) := Real.exp_pos _
    have hm1 : Real.exp (-(expS t b)) < 1 := by
      rw [show (1:ℝ) = Real.exp 0 by rw [Real.exp_zero]]
      exact Real.exp_lt_exp.mpr (by linarith)
    have hr_pos : 0 < (1 - Real.exp (-(expS t b)))
        / (1 + Real.exp (-(expS t b))) :=
      div_pos (by linarith) (by linarith)
    have hr_ne : (((1 - Real.exp (-(expS t b)))
        / (1 + Real.exp (-(expS t b))) : ℝ) : ℂ) ≠ 0 :=
      Complex.ofReal_ne_zero.mpr (ne_of_gt hr_pos)
    have habs_w : Complex.abs (moebiusW t b)
        = (1 - Real.exp (-(expS t b))) / (1 + Real.exp (-(expS t b))) :=
      abs_moebiusW t b hb
    have hw_ne : moebiusW t b ≠ 0 := by
      intro h
      rw [h, map_zero] at habs_w
      linarith
    have hsub_ne : exp t b - b ≠ 0 := by
      rw [hsub]
      exact div_ne_zero (mul_ne_zero hw_ne hC_ne) hD
    have hone_ne : 1 - conj b * exp t b ≠ 0 := by
      rw [hone]
      exact div_ne_zero hC_ne hD
    have htau : tau atol b (exp t b) = expS t b / 2 := by
      unfold tau
      have hlog1 : Real.log (1 / Real.exp (-(expS t b))) = expS t b := by
        rw [Real.log_div one_ne_zero (ne_of_gt hm0), Real.log_one, Real.log_exp]
        ring
      rw [hdelta, habs_w, inv_ratio_algebra _ hm0, hlog1]
      ring
    have hangle := exp_I_angle_eq b (exp t b) hsub_ne hone_ne
    have hq : (exp t b - b) / (1 - conj b * exp t b) = moebiusW t b := by
      rw [hsub, hone, mul_div_assoc]
      exact mul_div_cancel_right₀ _ (div_ne_zero hC_ne hD)
    rw [hq] at hangle
    have hunit : moebiusW t b / ((Complex.abs (moebiusW t b) : ℝ) : ℂ)
        = exp_i_theta t := by
      rw [habs_w]
      unfold moebiusW
      rw [mul_comm, mul_div_cancel_right₀ _ hr_ne]
    have hEt : exp_i_theta t = t / ((Complex.abs t : ℝ) : ℂ) := by
      unfold exp_i_theta
      exact exp_I_arg t ht
    have habs_t_ne : ((Complex.abs t : ℝ) : ℂ) ≠ 0 :=
      Complex.ofReal_ne_zero.mpr (ne_of_gt ht_abs)
    have hc_ne : 1 - (Complex.abs b)^2 ≠ 0 := ne_of_gt hC0
    have hreal : expS t b / 2 * (1 - (Complex.abs b)^2) = Complex.abs t := by
      unfold expS
      field_simp
      ring
    have hcast : ((expS t b / 2 : ℝ) : ℂ) * (((1 - (Complex.abs b)^2 : ℝ)) : ℂ)
        = ((Complex.abs t : ℝ) : ℂ) := by
      rw [← Complex.ofReal_mul, hreal]
    unfold log
    rw [htau, hangle, hunit, hEt]
    calc ((expS t b / 2 : ℝ) : ℂ) * (t / ((Complex.abs t : ℝ) : ℂ))
          * (((1 - (Complex.abs b)^2 : ℝ)) : ℂ)
        = (((expS t b / 2 : ℝ) : ℂ) * (((1 - (Complex.abs b)^2 : ℝ)) : ℂ))
            * t / ((Complex.abs t : ℝ) : ℂ) := by ring
      _ = ((Complex.abs t : ℝ) : ℂ) * t / ((Complex.abs t : ℝ) : ℂ) := by
            rw [hcast]
      _ = t := by rw [mul_comm, mul_div_cancel_right₀ _ habs_t_ne]

end ComplexPoincareDiskMetric

/-- Claim C1: for every base point b in the open disk and every tangent
vector t such that the computation stays in the unclamped regime of tau
(ratio below 1 - atol and denominator above atol), the logarithm of the
exponential returns t; and for every point p in the open disk in the
unclamped regime, the exponential of the logarithm returns p. -/
theorem claim1_exp_log_roundtrip (atol : ℝ) (b t p : ℂ)
    (h0 : 0 < atol) (hb : Complex.abs b < 1) (hp : Complex.abs p < 1) :
    ((atol < Complex.abs (1 - b * conj (ComplexPoincareDiskMetric.exp t b))
      ∧ Complex.abs (b - ComplexPoincareDiskMetric.exp t b)
          / Complex.abs (1 - b * conj (ComplexPoincareDiskMetric.exp t b))
        < 1 - atol)
      → ComplexPoincareDiskMetric.log atol (ComplexPoincareDiskMetric.exp t b) b
          = t)
    ∧ ((atol < Complex.abs (1 - b * conj p)
      ∧ Complex.abs (b - p) / Complex.abs (1 - b * conj p) < 1 - atol)
      → ComplexPoincareDiskMetric.exp (ComplexPoincareDiskMetric.log atol p b) b
          = p) :=
  ⟨fun h => ComplexPoincareDiskMetric.log_exp_eq atol b t h0 hb h.1 h.2,
   fun h => ComplexPoincareDiskMetric.exp_log_eq atol b p h0 hb hp h.1 h.2⟩

/-- Witness for claim C1 at b = 0, t = 0, p = 0, atol = 1/2, where both
clamps are inactive. -/
theorem claim1_exp_log_roundtrip_witness :
    ComplexPoincareDiskMetric.log (1/2) (ComplexPoincareDiskMetric.exp 0 0) 0 = 0
    ∧ ComplexPoincareDiskMetric.exp (ComplexPoincareDiskMetric.log (1/2) 0 0) 0
        = 0 := by
  constructor
  · exact (claim1_exp_log_roundtrip (1/2) 0 0 0 (by norm_num) (by simp) (by simp)).1
      ⟨by rw [ComplexPoincareDiskMetric.exp_zero_vec]; norm_num,
       by rw [ComplexPoincareDiskMetric.exp_zero_vec]; norm_num⟩
  · exact (claim1_exp_log_roundtrip (1/2) 0 0 0 (by norm_num) (by simp) (by simp)).2
      ⟨by norm_num, by norm_num⟩
